import Mathlib

/-!
Verification development for the ARB translation tool (`src/tools/translate.py`).

Texts are modelled as `List Char`.  The regular expressions of the source are
translated into explicit character-level scanners:

* `SIMPLE_PLACEHOLDER_RE = \{(\w+)\}`                          → `simpleAt`
* `ICU_VAR_RE = \{(\w+)\s*,\s*(?:plural|select|selectordinal)\s*,` (IGNORECASE)
                                                               → `icuAt`
* `re.match(r"\{\w+\s*,\s*(?:plural|select|selectordinal)", rest, IGNORECASE)`
                                                               → `icuStart`
* `re.search(r"(?:=\d+|zero|one|two|few|many|other)\s*$", before, IGNORECASE)`
                                                               → `endsCaseLabel`
* `re.search(r"\{" + re.escape(name) + r"(?:\}|\s*,)", out)`   → `tokenFound`

Python's `\w`, `\s`, `\d` are modelled on the ASCII range (the repository's
ARB keys and placeholder names are ASCII identifiers).  `finditer` is modelled
by `findIter`: scan left to right, on a match continue after its end, otherwise
advance one position; `search`/`match` are modelled by trying every position /
the first position.  Backtracking is resolved into deterministic scans, which
is sound here because each sub-pattern (`\w+`, `\s*`) is followed by a literal
that its own character class cannot match.
-/

namespace ArbTranslate

/-- Python `\w` (ASCII): letters, digits and underscore. -/
def pyWord (c : Char) : Bool := c.isAlphanum || c == '_'

/-- Python `\s` (ASCII): space, tab, newline, carriage return, vertical tab, form feed. -/
def pySpace (c : Char) : Bool :=
  c == ' ' || c == '\t' || c == '\n' || c == '\r' || c == '\x0b' || c == '\x0c'

/-- Python `\d` (ASCII). -/
def pyDigit (c : Char) : Bool := c.isDigit

/-- Match of `SIMPLE_PLACEHOLDER_RE = \{(\w+)\}` anchored at the head of the
list.  Returns (group 1, total match length). -/
def simpleAt : List Char → Option (List Char × Nat)
  | '{' :: rest =>
    let name := rest.takeWhile pyWord
    if name.isEmpty then none
    else
      match rest.drop name.length with
      | '}' :: _ => some (name, name.length + 2)
      | _ => none
  | _ => none

/-- `\s*,` anchored at the head: returns the consumed length. -/
def wsComma (l : List Char) : Option Nat :=
  let n := (l.takeWhile pySpace).length
  match l.drop n with
  | ',' :: _ => some (n + 1)
  | _ => none

/-- Case-insensitive literal prefix test (the literal is given lowercase),
modelling `re.IGNORECASE` on the fixed keywords. -/
def startsCI : List Char → List Char → Bool
  | [], _ => true
  | _ :: _, [] => false
  | k :: ks, c :: cs => (c.toLower == k) && startsCI ks cs

/-- One keyword alternative followed by `\s*,`: returns the consumed length. -/
def kwComma (kw l : List Char) : Option Nat :=
  if startsCI kw l then
    match wsComma (l.drop kw.length) with
    | some n => some (kw.length + n)
    | none => none
  else none

def pluralKW : List Char := "plural".toList
def selectKW : List Char := "select".toList
def selectordinalKW : List Char := "selectordinal".toList

/-- Match of `ICU_VAR_RE` anchored at the head of the list:
`\{(\w+)\s*,\s*(?:plural|select|selectordinal)\s*,` with `re.IGNORECASE`.
Returns (group 1, total match length).  The alternation is tried in the
pattern's order, as Python does. -/
def icuAt : List Char → Option (List Char × Nat)
  | '{' :: rest =>
    let name := rest.takeWhile pyWord
    if name.isEmpty then none
    else
      match wsComma (rest.drop name.length) with
      | none => none
      | some n1 =>
        let l2 := rest.drop (name.length + n1)
        let m := (l2.takeWhile pySpace).length
        let l3 := l2.drop m
        match kwComma pluralKW l3 <|> kwComma selectKW l3 <|> kwComma selectordinalKW l3 with
        | some n2 => some (name, 1 + name.length + n1 + m + n2)
        | none => none
  | _ => none

/-- `re.match(r"\{\w+\s*,\s*(?:plural|select|selectordinal)", rest, IGNORECASE)`
as a Boolean (the source only uses its truth value). -/
def icuStart : List Char → Bool
  | '{' :: rest =>
    let name := rest.takeWhile pyWord
    if name.isEmpty then false
    else
      match wsComma (rest.drop name.length) with
      | none => false
      | some n1 =>
        let l2 := rest.drop (name.length + n1)
        let l3 := l2.drop (l2.takeWhile pySpace).length
        startsCI pluralKW l3 || startsCI selectKW l3 || startsCI selectordinalKW l3
  | _ => false

/-- `re.search(r"(?:=\d+|zero|one|two|few|many|other)\s*$", before, IGNORECASE)`
as a Boolean.  A match ending at `$` (possibly through `\s*`) exists iff,
after stripping trailing whitespace, `before` ends in one of the word labels
(case-insensitively) or in `=` followed by one or more digits.  The
computation works on the reversed, whitespace-stripped list. -/
def endsCaseLabel (before : List Char) : Bool :=
  let r := before.reverse.dropWhile pySpace
  startsCI "orez".toList r || startsCI "eno".toList r || startsCI "owt".toList r ||
  startsCI "wef".toList r || startsCI "ynam".toList r || startsCI "rehto".toList r ||
  (let d := r.takeWhile pyDigit
   !d.isEmpty &&
     (match r.drop d.length with
      | '=' :: _ => true
      | _ => false))

/-- `re.finditer`: scan left to right from position 0; on a match record it and
continue after its end, otherwise advance one position.  `fuel` bounds the
iteration (every step advances by at least one position for the patterns
used here, so `s.length + 1` suffices). -/
def findIter (matchAt : List Char → Option (List Char × Nat)) :
    Nat → Nat → List Char → List (Nat × List Char)
  | 0, _, _ => []
  | fuel + 1, pos, s =>
    if pos < s.length + 1 then
      match matchAt (s.drop pos) with
      | some (name, len) => (pos, name) :: findIter matchAt fuel (pos + len) s
      | none => findIter matchAt fuel (pos + 1) s
    else []

/-- `ICU_VAR_RE.finditer(s)`: (position, group 1) pairs. -/
def icuFindIter (s : List Char) : List (Nat × List Char) :=
  findIter icuAt (s.length + 1) 0 s

/-- `SIMPLE_PLACEHOLDER_RE.finditer(s)`: (position, group 1) pairs. -/
def simpleFindIter (s : List Char) : List (Nat × List Char) :=
  findIter simpleAt (s.length + 1) 0 s

/-- `has_icu_block`: `bool(ICU_VAR_RE.search(s))`. -/
def has_icu_block (s : List Char) : Bool :=
  (List.range (s.length + 1)).any fun p => (icuAt (s.drop p)).isSome

/-- Strict lexicographic order on code points — the order Python's `sorted`
uses on `str`. -/
def charListLt : List Char → List Char → Bool
  | _, [] => false
  | [], _ :: _ => true
  | a :: as, b :: bs =>
    Nat.blt a.toNat b.toNat || (a == b && charListLt as bs)

/-- `charListLt` lifted to `String`. -/
def strLt (a b : String) : Bool := charListLt a.toList b.toList

/-- Insertion into a sorted duplicate-free list of names; folding it over a
list of names yields exactly Python's `sorted(set(names))`. -/
def insertName (x : String) : List String → List String
  | [] => [x]
  | y :: ys =>
    if strLt x y then x :: y :: ys
    else if x = y then y :: ys
    else y :: insertName x ys

/-- `extract_placeholder_names`: ICU variable names, plus simple `{name}`
placeholders that neither begin an ICU construct (`icuStart` on the rest of
the string) nor follow an ICU case label (`endsCaseLabel` on the part of the
string before the match); the result is `sorted(set(names))`. -/
def extract_placeholder_names (s : List Char) : List String :=
  let icuNames := (icuFindIter s).map fun pn => String.mk pn.2
  let simpleNames :=
    ((simpleFindIter s).filter fun pn =>
        !icuStart (s.drop pn.1) && !endsCaseLabel (s.take pn.1)).map
      fun pn => String.mk pn.2
  (icuNames ++ simpleNames).foldr insertName []

/-- The `(?:\}|\s*,)` part of the validator's per-name pattern, anchored at
the head of the list. -/
def tokenTail (r : List Char) : Bool :=
  match r with
  | '}' :: _ => true
  | _ =>
    match r.drop (r.takeWhile pySpace).length with
    | ',' :: _ => true
    | _ => false

/-- The validator's per-name pattern
`r"\{" + re.escape(name) + r"(?:\}|\s*,)"` anchored at the head of the list
(`re.escape` is the identity on `\w+` names). -/
def tokenAt (name : List Char) : List Char → Bool
  | '{' :: rest => name.isPrefixOf rest && tokenTail (rest.drop name.length)
  | _ => false

/-- `re.search` of the validator's per-name pattern in `out`. -/
def tokenFound (name : List Char) (out : List Char) : Bool :=
  (List.range (out.length + 1)).any fun p => tokenAt name (out.drop p)

/-- The validator's loop over the (sorted) extracted names: the first name
whose pattern is not found in `out`, if any. -/
def firstMissing (names : List String) (out : List Char) : Option String :=
  match names with
  | [] => none
  | n :: ns => if tokenFound n.toList out then firstMissing ns out else some n

/-- `validate_preserved_tokens(src, out)`: `(True, None)` on success, or
`(False, reason)` naming the first missing placeholder / the missing ICU
block. -/
def validate_preserved_tokens (src out : List Char) : Bool × Option String :=
  match firstMissing (extract_placeholder_names src) out with
  | some n => (false, some ("Missing placeholder: \x7b" ++ n ++ "\x7d"))
  | none =>
    if has_icu_block src && !has_icu_block out then
      (false, some "ICU plural/select block missing")
    else (true, none)

/-!
## Job runner (`translate_one`)

The backend (`ollama_generate`) is modelled as an arbitrary attempt-indexed
function `primary : Nat → Except String (List Char)`: on attempt `a` it either
returns some text (`Except.ok`) or raises an exception whose `str` is the
carried message (`Except.error`).  The optional fallback backend is a single
behaviour `Option (Except String (List Char))` (`none` = no fallback model
configured), since the code calls it at most once.  `time.sleep` backoffs and
prompt construction do not affect the returned tuple and are not modelled.
The returned tuple `(key, translated_text, error_or_none, used_fallback)` is
the `Outcome` structure, extended with an instrumentation counter
`fallback_calls` recording how many requests were issued to the fallback
backend. -/

structure Outcome where
  key : String
  text : List Char
  err : Option String
  used_fallback : Bool
  fallback_calls : Nat
deriving Repr, DecidableEq

/-- The `for attempt in range(retries + 1)` loop of `translate_one`, over the
remaining attempt indices.  On a raised exception the loop records `str(e)`;
on a validation failure it records `f"Validation failed: {why}"` (on the last
attempt the code raises `ValueError(last_err)` and immediately catches it,
which leaves `last_err` unchanged).  The loop exits with the validated text,
or with the final `last_err` once attempts are exhausted. -/
def runAttempts (text : List Char) (primary : Nat → Except String (List Char)) :
    List Nat → Option String → Except (Option String) (List Char)
  | [], lastErr => .error lastErr
  | a :: rest, _lastErr =>
    match primary a with
    | .error msg => runAttempts text primary rest (some msg)
    | .ok out =>
      if (validate_preserved_tokens text out).1 then .ok out
      else
        runAttempts text primary rest
          (some ("Validation failed: " ++ ((validate_preserved_tokens text out).2.getD "None")))

/-- `translate_one(key, text, ..., retries, ..., fallback_cfg)`. -/
def translate_one (key : String) (text : List Char)
    (primary : Nat → Except String (List Char)) (retries : Nat)
    (fallback_cfg : Option (Except String (List Char))) : Outcome :=
  match runAttempts text primary (List.range (retries + 1)) none with
  | .ok out => ⟨key, out, none, false, 0⟩
  | .error lastErr =>
    match fallback_cfg with
    | none => ⟨key, text, lastErr, false, 0⟩
    | some (.ok fout) =>
      if (validate_preserved_tokens text fout).1 then ⟨key, fout, none, true, 1⟩
      else ⟨key, text, lastErr, false, 1⟩
    | some (.error _) => ⟨key, text, lastErr, false, 1⟩

/-- Truth value of "attempt `a` of the primary loop fails" (transport error,
or response failing validation). -/
def attemptFails (text : List Char) (primary : Nat → Except String (List Char)) (a : Nat) : Bool :=
  match primary a with
  | .error _ => true
  | .ok out => !(validate_preserved_tokens text out).1

/-- The error description `translate_one` records for failing attempt `a`. -/
def attemptReason (text : List Char) (primary : Nat → Except String (List Char)) (a : Nat) :
    String :=
  match primary a with
  | .error msg => msg
  | .ok out => "Validation failed: " ++ ((validate_preserved_tokens text out).2.getD "None")

/-!
## Documents (`find_missing_keys`, `is_translatable_entry`, `translate_locale`)

ARB documents are ordered key→value mappings.  The code only distinguishes
string values from non-string values (metadata objects etc.), so values are
modelled as `JVal`: `jstr` for strings, `jother` for any non-string JSON value
(tagged with a `Nat` so distinct non-string values stay distinguishable).
Python `dict` operations become association-list operations preserving
insertion order, as Python dicts do. -/

inductive JVal where
  | jstr : String → JVal
  | jother : Nat → JVal
deriving Repr, DecidableEq

abbrev Doc := List (String × JVal)

/-- `d.get(k)` / `d[k]`. -/
def dictGet (d : Doc) (k : String) : Option JVal :=
  (d.find? fun kv => kv.1 == k).map fun kv => kv.2

/-- `k in d`. -/
def dictMem (d : Doc) (k : String) : Bool :=
  (d.find? fun kv => kv.1 == k).isSome

/-- `d[k] = v`: replace in place if the key exists, else append. -/
def dictSet : Doc → String → JVal → Doc
  | [], k, v => [(k, v)]
  | kv :: rest, k, v =>
    if kv.1 == k then (kv.1, v) :: rest else kv :: dictSet rest k v

/-- `s.strip() == ""`. -/
def stripEmpty (s : String) : Bool := s.toList.all pySpace

/-- `key.startswith("@")`: the key's first character is `'@'`. -/
def startsWithAt (k : String) : Bool :=
  match k.toList with
  | c :: _ => c == '@'
  | [] => false

def SKIP_KEYS : List String := ["appTitle"]

/-- `is_translatable_entry(key, value)`; the value is an `Option` because one
call site passes `source_data.get(key)`. -/
def is_translatable_entry (key : String) (value : Option JVal) : Bool :=
  if key == "@@locale" || startsWithAt key || SKIP_KEYS.contains key then false
  else
    match value with
    | some (JVal.jstr s) => !stripEmpty s
    | _ => false

/-- `key not in target_data or (isinstance(target_data.get(key), str) and
target_data[key].strip() == "")`. -/
def key_missing (target_data : Doc) (key : String) : Bool :=
  !dictMem target_data key ||
    (match dictGet target_data key with
     | some (JVal.jstr s) => stripEmpty s
     | _ => false)

/-- `find_missing_keys(source_data, target_data)`. -/
def find_missing_keys (source_data target_data : Doc) : List String :=
  source_data.filterMap fun kv =>
    if kv.1 == "@@locale" || startsWithAt kv.1 then none
    else if key_missing target_data kv.1 then some kv.1 else none

/-- `MANUAL_TRANSLATIONS`: key → (locale → curated translation). -/
def MANUAL_TRANSLATIONS : List (String × List (String × String)) :=
  [("repeater_daysHoursMinsSecs",
    [("es", "\x7bdays\x7d días \x7bhours\x7dh \x7bminutes\x7dm \x7bseconds\x7ds"),
     ("fr", "\x7bdays\x7d jours \x7bhours\x7dh \x7bminutes\x7dm \x7bseconds\x7ds"),
     ("de", "\x7bdays\x7d Tage \x7bhours\x7dh \x7bminutes\x7dm \x7bseconds\x7ds"),
     ("it", "\x7bdays\x7d giorni \x7bhours\x7dh \x7bminutes\x7dm \x7bseconds\x7ds"),
     ("pt", "\x7bdays\x7d dias \x7bhours\x7dh \x7bminutes\x7dm \x7bseconds\x7ds"),
     ("pl", "\x7bdays\x7d dni \x7bhours\x7dh \x7bminutes\x7dm \x7bseconds\x7ds"),
     ("sk", "\x7bdays\x7d dní \x7bhours\x7dh \x7bminutes\x7dm \x7bseconds\x7ds"),
     ("sl", "\x7bdays\x7d dni \x7bhours\x7dh \x7bminutes\x7dm \x7bseconds\x7ds"),
     ("cs", "\x7bdays\x7d dní \x7bhours\x7dh \x7bminutes\x7dm \x7bseconds\x7ds"),
     ("ja", "\x7bdays\x7d日 \x7bhours\x7d時間 \x7bminutes\x7d分 \x7bseconds\x7d秒"),
     ("ko", "\x7bdays\x7d일 \x7bhours\x7d시간 \x7bminutes\x7d분 \x7bseconds\x7d초"),
     ("zh", "\x7bdays\x7d天 \x7bhours\x7d小时 \x7bminutes\x7d分 \x7bseconds\x7d秒"),
     ("ru", "\x7bdays\x7d дней \x7bhours\x7dч \x7bminutes\x7dм \x7bseconds\x7dс"),
     ("bg", "\x7bdays\x7d дни \x7bhours\x7dч \x7bminutes\x7dм \x7bseconds\x7dс"),
     ("nl", "\x7bdays\x7d dagen \x7bhours\x7du \x7bminutes\x7dm \x7bseconds\x7ds"),
     ("sv", "\x7bdays\x7d dagar \x7bhours\x7dt \x7bminutes\x7dm \x7bseconds\x7ds")])]

/-!
## `translate_locale`

The function is modelled as a pure transformer on the pair
`(source_data, out_data)`; every Python statement that writes into a dict
becomes an update of the corresponding component, so which documents a run
mutates is visible in the model.  Printing, timing/ETA, the run counters, the
dry-run switch and the final file write (I/O only) are not modelled.  The
thread pool's `as_completed` order is modelled by an arbitrary reordering
function applied to the submitted job list; each job's backend behaviour is
given per key by `primaryOf`. -/

/-- The `items` list: `(key, source text)` jobs, built either from
`missing_keys` (looking the text up in `source_data`) or from every
translatable entry of `source_data`. -/
def itemsOf (source_data : Doc) (missing_keys : Option (List String)) :
    List (String × List Char) :=
  match missing_keys with
  | some mks =>
    mks.filterMap fun k =>
      match dictGet source_data k with
      | some (JVal.jstr v) =>
        if is_translatable_entry k (some (JVal.jstr v)) then some (k, v.toList) else none
      | _ => none
  | none =>
    source_data.filterMap fun kv =>
      match kv.2 with
      | JVal.jstr v =>
        if is_translatable_entry kv.1 (some (JVal.jstr v)) then some (kv.1, v.toList) else none
      | _ => none

/-- One step of the metadata-copy loop: `out_data[f"@{key}"] =
source_data[f"@{key}"]` when the metadata key exists in the source. -/
def metaStep (st : Doc × Doc) (key : String) : Doc × Doc :=
  match dictGet st.1 ("@" ++ key) with
  | some v => (st.1, dictSet st.2 ("@" ++ key) v)
  | none => st

/-- One step of the manual-translation loop: apply the curated translation to
`out_data` when (key, locale) is in `MANUAL_TRANSLATIONS`, else keep the item
for backend translation. -/
def manualStep (target_locale : String)
    (acc : (Doc × Doc) × List (String × List Char)) (kv : String × List Char) :
    (Doc × Doc) × List (String × List Char) :=
  match MANUAL_TRANSLATIONS.find? fun e => e.1 == kv.1 with
  | some entry =>
    match entry.2.find? fun e => e.1 == target_locale with
    | some tr => ((acc.1.1, dictSet acc.1.2 kv.1 (JVal.jstr tr.2)), acc.2)
    | none => (acc.1, acc.2 ++ [kv])
  | none => (acc.1, acc.2 ++ [kv])

/-- One step of the result-collection loop: run the job through
`translate_one` and store `out_data[k] = translated`. -/
def jobStep (primaryOf : String → Nat → Except String (List Char)) (retries : Nat)
    (fallback_cfg : Option (Except String (List Char)))
    (st : Doc × Doc) (kv : String × List Char) : Doc × Doc :=
  let o := translate_one kv.1 kv.2 (primaryOf kv.1) retries fallback_cfg
  (st.1, dictSet st.2 o.key (JVal.jstr (String.mk o.text)))

/-- `translate_locale(source_data, target_data, target_locale, ...)`:
returns the final `(source_data, out_data)` pair. -/
def translate_locale (source_data target_data : Doc) (target_locale : String)
    (primaryOf : String → Nat → Except String (List Char)) (retries : Nat)
    (fallback_cfg : Option (Except String (List Char)))
    (missing_keys : Option (List String))
    (reorder : List (String × List Char) → List (String × List Char)) :
    Doc × Doc :=
  let st0 : Doc × Doc :=
    (source_data, if target_data.isEmpty then source_data else target_data)
  let st1 : Doc × Doc := (st0.1, dictSet st0.2 "@@locale" (JVal.jstr target_locale))
  let items := itemsOf source_data missing_keys
  let st2 : Doc × Doc :=
    match missing_keys with
    | some mks => mks.foldl metaStep st1
    | none => st1
  let pr := items.foldl (manualStep target_locale) (st2, [])
  (reorder pr.2).foldl (jobStep primaryOf retries fallback_cfg) pr.1

/-! ## Helper lemmas -/

theorem drop_length_takeWhile (p : Char → Bool) (l : List Char) :
    l.drop (l.takeWhile p).length = l.dropWhile p := by
  induction l with
  | nil => rfl
  | cons c l ih =>
    cases h : p c <;> simp [List.takeWhile_cons, List.dropWhile_cons, h, ih]

theorem mem_insertName (x a : String) (l : List String) :
    a ∈ insertName x l ↔ a = x ∨ a ∈ l := by
  induction l with
  | nil => simp [insertName]
  | cons y ys ih =>
    simp only [insertName]
    split_ifs with h1 h2
    · simp [List.mem_cons]
    · subst h2; simp [List.mem_cons]
    · simp only [List.mem_cons, ih]; tauto

theorem charListLt_irrefl : ∀ a : List Char, charListLt a a = false
  | [] => rfl
  | a :: as => by
    simp only [charListLt, Bool.or_eq_false_iff, Bool.and_eq_false_iff]
    refine ⟨?_, Or.inr (charListLt_irrefl as)⟩
    rw [Bool.eq_false_iff]
    intro hc
    rw [Nat.blt_eq] at hc
    exact Nat.lt_irrefl _ hc

theorem charListLt_trans :
    ∀ a b c : List Char, charListLt a b = true → charListLt b c = true →
      charListLt a c = true
  | _, _, [], _, hbc => by simp [charListLt] at hbc
  | [], _ :: _, _ :: _, _, _ => rfl
  | [], [], _ :: _, hab, _ => by simp [charListLt] at hab
  | _ :: _, [], _ :: _, hab, _ => by simp [charListLt] at hab
  | a :: as, b :: bs, c :: cs, hab, hbc => by
    simp only [charListLt, Bool.or_eq_true, Bool.and_eq_true, Nat.blt_eq,
      beq_iff_eq] at hab hbc ⊢
    rcases hab with hab | ⟨rfl, hab⟩
    · rcases hbc with hbc | ⟨rfl, hbc⟩
      · exact Or.inl (Nat.lt_trans hab hbc)
      · exact Or.inl hab
    · rcases hbc with hbc | ⟨rfl, hbc⟩
      · exact Or.inl hbc
      · exact Or.inr ⟨rfl, charListLt_trans as bs cs hab hbc⟩

theorem char_toNat_inj {a b : Char} (h : a.toNat = b.toNat) : a = b := by
  cases a with
  | mk va ha =>
    cases b with
    | mk vb hb =>
      have : va = vb := UInt32.toNat.inj h
      subst this
      rfl

theorem charListLt_conn :
    ∀ a b : List Char, charListLt a b = false → a ≠ b → charListLt b a = true
  | [], [], _, hne => absurd rfl hne
  | [], _ :: _, hab, _ => by simp [charListLt] at hab
  | _ :: _, [], _, _ => rfl
  | a :: as, b :: bs, hab, hne => by
    simp only [charListLt, Bool.or_eq_false_iff, Bool.and_eq_false_iff, Nat.blt_eq,
      decide_eq_false_iff_not, beq_eq_false_iff_ne, ne_eq] at hab
    obtain ⟨hnlt, hrest⟩ := hab
    by_cases heq : a = b
    · subst heq
      rcases hrest with h1 | h1
      · exact absurd rfl h1
      · have hne2 : as ≠ bs := fun h => hne (by rw [h])
        simp only [charListLt, Bool.or_eq_true, Bool.and_eq_true, beq_iff_eq]
        exact Or.inr ⟨by simp, charListLt_conn as bs h1 hne2⟩
    · have hnlt2 : ¬ a.toNat < b.toNat := by
        intro hc
        rw [← Nat.blt_eq] at hc
        rw [hnlt] at hc
        exact Bool.noConfusion hc
      have hlt : b.toNat < a.toNat := by
        rcases Nat.lt_or_ge b.toNat a.toNat with h1 | h1
        · exact h1
        · exact absurd (char_toNat_inj (Nat.le_antisymm h1 (Nat.not_lt.1 hnlt2))) heq
      simp only [charListLt, Bool.or_eq_true, Nat.blt_eq]
      exact Or.inl hlt

theorem strLt_trans {a b c : String} (h1 : strLt a b = true) (h2 : strLt b c = true) :
    strLt a c = true :=
  charListLt_trans a.toList b.toList c.toList h1 h2

theorem strLt_conn {a b : String} (h1 : strLt a b = false) (h2 : a ≠ b) :
    strLt b a = true := by
  refine charListLt_conn a.toList b.toList h1 fun hdata => h2 ?_
  cases a; cases b
  simp only [String.toList] at hdata
  rw [hdata]

theorem pairwise_insertName (x : String) (l : List String)
    (h : l.Pairwise (fun a b => strLt a b = true)) :
    (insertName x l).Pairwise (fun a b => strLt a b = true) := by
  induction l with
  | nil => simp [insertName]
  | cons y ys ih =>
    rw [List.pairwise_cons] at h
    simp only [insertName]
    split_ifs with h1 h2
    · refine List.Pairwise.cons ?_ (List.Pairwise.cons h.1 h.2)
      intro b hb
      rcases List.mem_cons.1 hb with rfl | hb
      · exact h1
      · exact strLt_trans h1 (h.1 b hb)
    · exact List.Pairwise.cons h.1 h.2
    · have hyx : strLt y x = true :=
        strLt_conn (Bool.eq_false_iff.mpr h1) h2
      refine List.Pairwise.cons ?_ (ih h.2)
      intro b hb
      rcases (mem_insertName x b ys).1 hb with rfl | hb
      · exact hyx
      · exact h.1 b hb

theorem mem_foldr_insertName (l : List String) (a : String) :
    a ∈ l.foldr insertName [] ↔ a ∈ l := by
  induction l with
  | nil => simp
  | cons x xs ih => simp [List.foldr_cons, mem_insertName, ih]

theorem pairwise_foldr_insertName (l : List String) :
    (l.foldr insertName []).Pairwise (fun a b => strLt a b = true) := by
  induction l with
  | nil => simp
  | cons x xs ih => exact pairwise_insertName x _ ih

/-- Every pair produced by `findIter` is a real anchored match of the pattern
at its recorded position. -/
theorem findIter_mem (matchAt : List Char → Option (List Char × Nat)) :
    ∀ (fuel pos : Nat) (s : List Char) (p : Nat) (name : List Char),
      (p, name) ∈ findIter matchAt fuel pos s →
      ∃ len, matchAt (s.drop p) = some (name, len) := by
  intro fuel
  induction fuel with
  | zero => intro pos s p name h; simp [findIter] at h
  | succ fuel ih =>
    intro pos s p name h
    rw [findIter] at h
    split at h
    · split at h
      · rename_i nm len heq
        rcases List.mem_cons.1 h with heq2 | h2
        · cases heq2; exact ⟨len, heq⟩
        · exact ih _ _ _ _ h2
      · exact ih _ _ _ _ h
    · simp at h

theorem wsComma_some {l : List Char} {n : Nat} (h : wsComma l = some n) :
    ∃ tail, l.dropWhile pySpace = ',' :: tail := by
  simp only [wsComma, drop_length_takeWhile] at h
  split at h
  · rename_i tail heq; exact ⟨tail, heq⟩
  · exact absurd h (by simp)

theorem tokenTail_of_comma {r tail : List Char} (h : r.dropWhile pySpace = ',' :: tail) :
    tokenTail r = true := by
  unfold tokenTail
  split
  · rfl
  · rw [drop_length_takeWhile, h]
    rfl

theorem tokenTail_of_brace {r : List Char} : tokenTail ('}' :: r) = true := rfl

theorem tokenAt_nil (name : List Char) : tokenAt name [] = false := rfl

theorem icuAt_tokenAt {l name : List Char} {len : Nat}
    (h : icuAt l = some (name, len)) : tokenAt name l = true := by
  rw [icuAt.eq_def] at h
  split at h
  · rename_i rest
    simp only at h
    split at h
    · exact absurd h (by simp)
    · split at h
      · exact absurd h (by simp)
      · rename_i hne n1 hws
        split at h
        · simp only [Option.some.injEq, Prod.mk.injEq] at h
          obtain ⟨rfl, -⟩ := h
          obtain ⟨tail, htail⟩ := wsComma_some hws
          show tokenAt _ ('{' :: rest) = true
          rw [tokenAt, Bool.and_eq_true]
          refine ⟨?_, ?_⟩
          · exact List.isPrefixOf_iff_prefix.2 (List.takeWhile_prefix _)
          · exact tokenTail_of_comma htail
        · exact absurd h (by simp)
  · exact absurd h (by simp)

theorem simpleAt_tokenAt {l name : List Char} {len : Nat}
    (h : simpleAt l = some (name, len)) : tokenAt name l = true := by
  rw [simpleAt.eq_def] at h
  split at h
  · rename_i rest
    simp only at h
    split at h
    · exact absurd h (by simp)
    · split at h
      · rename_i hne tail heq
        simp only [Option.some.injEq, Prod.mk.injEq] at h
        obtain ⟨rfl, -⟩ := h
        show tokenAt _ ('{' :: rest) = true
        rw [tokenAt, Bool.and_eq_true]
        refine ⟨?_, ?_⟩
        · exact List.isPrefixOf_iff_prefix.2 (List.takeWhile_prefix _)
        · rw [heq]; exact tokenTail_of_brace
      · exact absurd h (by simp)
  · exact absurd h (by simp)

theorem tokenFound_of_tokenAt {name s : List Char} {pos : Nat}
    (h : tokenAt name (s.drop pos) = true) : tokenFound name s = true := by
  have hne : s.drop pos ≠ [] := by
    intro hnil
    rw [hnil, tokenAt_nil] at h
    exact Bool.noConfusion h
  have hpos : pos < s.length := by
    rcases Nat.lt_or_ge pos s.length with h1 | h1
    · exact h1
    · exact absurd (List.drop_eq_nil_of_le h1) hne
  unfold tokenFound
  rw [List.any_eq_true]
  exact ⟨pos, List.mem_range.2 (Nat.lt_succ_of_lt hpos), h⟩

theorem firstMissing_eq_none {names : List String} {out : List Char}
    (h : ∀ n ∈ names, tokenFound n.toList out = true) :
    firstMissing names out = none := by
  induction names with
  | nil => rfl
  | cons n ns ih =>
    unfold firstMissing
    rw [if_pos (h n (List.mem_cons_self n ns))]
    exact ih fun m hm => h m (List.mem_cons_of_mem _ hm)

theorem all_found_of_firstMissing_none {names : List String} {out : List Char}
    (h : firstMissing names out = none) :
    ∀ n ∈ names, tokenFound n.toList out = true := by
  induction names with
  | nil => simp
  | cons n ns ih =>
    intro m hm
    unfold firstMissing at h
    by_cases hf : tokenFound n.toList out = true
    · rw [if_pos hf] at h
      rcases List.mem_cons.1 hm with rfl | hm2
      · exact hf
      · exact ih h m hm2
    · rw [if_neg hf] at h
      exact Option.noConfusion h

theorem firstMissing_some_of_missing {names : List String} {out : List Char} {n : String}
    (hn : n ∈ names) (hmiss : tokenFound n.toList out = false) :
    ∃ m, firstMissing names out = some m ∧ m ∈ names ∧ tokenFound m.toList out = false := by
  induction names with
  | nil => cases hn
  | cons a as ih =>
    by_cases hf : tokenFound a.toList out = true
    · rcases List.mem_cons.1 hn with rfl | hn2
      · rw [hmiss] at hf; exact Bool.noConfusion hf
      · obtain ⟨m, hm1, hm2, hm3⟩ := ih hn2
        refine ⟨m, ?_, List.mem_cons_of_mem _ hm2, hm3⟩
        unfold firstMissing
        rw [if_pos hf]
        exact hm1
    · refine ⟨a, ?_, List.mem_cons_self a as, Bool.eq_false_iff.mpr hf⟩
      unfold firstMissing
      rw [if_neg hf]

theorem firstMissing_eq_of_only {names : List String} {out : List Char} {n : String}
    (hn : n ∈ names) (hmiss : tokenFound n.toList out = false)
    (hrest : ∀ m ∈ names, m ≠ n → tokenFound m.toList out = true) :
    firstMissing names out = some n := by
  induction names with
  | nil => cases hn
  | cons a as ih =>
    unfold firstMissing
    by_cases hf : tokenFound a.toList out = true
    · have han : a ≠ n := by
        intro heq
        rw [heq, hmiss] at hf
        exact Bool.noConfusion hf
      rw [if_pos hf]
      rcases List.mem_cons.1 hn with rfl | hn2
      · exact absurd rfl han
      · exact ih hn2 fun m hm hmn => hrest m (List.mem_cons_of_mem _ hm) hmn
    · rw [if_neg hf]
      rcases List.mem_cons.1 hn with rfl | hn2
      · rfl
      · by_cases han : a = n
        · rw [han]
        · exact absurd (hrest a (List.mem_cons_self a as) han) hf

/-- Every name returned by `extract_placeholder_names` comes from an ICU
variable match, or from a simple-placeholder match whose skip conditions
(`icuStart` on the rest, `endsCaseLabel` on the part before) were false. -/
theorem mem_extract_sound {s : List Char} {n : String}
    (h : n ∈ extract_placeholder_names s) :
    (∃ p len, icuAt (s.drop p) = some (n.toList, len)) ∨
    (∃ p len, simpleAt (s.drop p) = some (n.toList, len) ∧
      icuStart (s.drop p) = false ∧ endsCaseLabel (s.take p) = false) := by
  unfold extract_placeholder_names at h
  rw [mem_foldr_insertName, List.mem_append] at h
  rcases h with h | h
  · left
    rw [List.mem_map] at h
    obtain ⟨⟨p, nm⟩, hmem, heq⟩ := h
    obtain ⟨len, hat⟩ := findIter_mem icuAt _ _ _ _ _ hmem
    have hn : n.toList = nm := by rw [← heq]; rfl
    exact ⟨p, len, by rw [hn]; exact hat⟩
  · right
    rw [List.mem_map] at h
    obtain ⟨⟨p, nm⟩, hmem, heq⟩ := h
    rw [List.mem_filter] at hmem
    obtain ⟨hmem, hcond⟩ := hmem
    obtain ⟨len, hat⟩ := findIter_mem simpleAt _ _ _ _ _ hmem
    simp only [Bool.and_eq_true, Bool.not_eq_true'] at hcond
    have hn : n.toList = nm := by rw [← heq]; rfl
    exact ⟨p, len, by rw [hn]; exact hat, hcond.1, hcond.2⟩

/-- Every extracted name is found (in `{name}` or `{name,` form) in the very
string it was extracted from. -/
theorem extract_found_in_self {s : List Char} {n : String}
    (h : n ∈ extract_placeholder_names s) : tokenFound n.toList s = true := by
  rcases mem_extract_sound h with ⟨p, len, hat⟩ | ⟨p, len, hat, -, -⟩
  · exact tokenFound_of_tokenAt (icuAt_tokenAt hat)
  · exact tokenFound_of_tokenAt (simpleAt_tokenAt hat)

/-! ## Claim theorems: validator -/

/-- C5: for every source string `s`, `validate_preserved_tokens s s` passes:
validating a candidate equal to the source text verbatim always returns
`(True, None)`. -/
theorem C5_validate_roundtrip (s : List Char) :
    validate_preserved_tokens s s = (true, none) := by
  unfold validate_preserved_tokens
  rw [firstMissing_eq_none fun n hn => extract_found_in_self hn]
  simp

/-- C9: a source string with no extracted placeholder names and no ICU block
puts no constraint at all on the candidate: validation passes for every
candidate, including the empty string. -/
theorem C9_validator_unconstrained (s c : List Char)
    (hnames : extract_placeholder_names s = [])
    (hicu : has_icu_block s = false) :
    validate_preserved_tokens s c = (true, none) := by
  unfold validate_preserved_tokens
  rw [hnames, hicu]
  simp [firstMissing]

/-- C9 witness: the validator accepts the empty candidate for source
`"Hello"`. -/
theorem C9_validator_unconstrained_witness :
    validate_preserved_tokens "Hello".toList [] = (true, none) :=
  C9_validator_unconstrained "Hello".toList [] (by decide) (by decide)

/-- The probe string of the spec:
`"{count, plural, =1{one file} other{{count} files}}"`. -/
def probeICU : List Char :=
  "\x7bcount, plural, =1\x7bone file\x7d other\x7b\x7bcount\x7d files\x7d\x7d".toList

/-- C3: on the probe string the extractor returns exactly `["count"]` and the
ICU detector fires; in general the returned list is strictly sorted in
code-point order (hence duplicate-free), and every reported name comes from an
ICU variable or from a simple placeholder whose brace does not follow an ICU
case label (`=0`, `one`, `other`, ... — the `endsCaseLabel` test). -/
theorem C3_extractor_probe_and_shape :
    extract_placeholder_names probeICU = ["count"] ∧
    has_icu_block probeICU = true ∧
    (∀ s : List Char,
      (extract_placeholder_names s).Pairwise (fun a b => strLt a b = true) ∧
      (extract_placeholder_names s).Nodup) ∧
    (∀ (s : List Char) (n : String), n ∈ extract_placeholder_names s →
      (∃ p len, icuAt (s.drop p) = some (n.toList, len)) ∨
      (∃ p len, simpleAt (s.drop p) = some (n.toList, len) ∧
        endsCaseLabel (s.take p) = false)) := by
  refine ⟨by decide, by decide, ?_, ?_⟩
  · intro s
    have hp : (extract_placeholder_names s).Pairwise (fun a b => strLt a b = true) := by
      unfold extract_placeholder_names
      exact pairwise_foldr_insertName _
    refine ⟨hp, ?_⟩
    refine List.Pairwise.imp ?_ hp
    intro a b hab heq
    rw [heq, strLt, charListLt_irrefl] at hab
    exact Bool.noConfusion hab
  · intro s n hn
    rcases mem_extract_sound hn with ⟨p, len, hat⟩ | ⟨p, len, hat, -, hlab⟩
    · exact Or.inl ⟨p, len, hat⟩
    · exact Or.inr ⟨p, len, hat, hlab⟩

/-- C3 witness: the probe's reported name `"count"` has a non-case-label
provenance. -/
theorem C3_extractor_probe_and_shape_witness :
    (∃ p len, icuAt (probeICU.drop p) = some (("count" : String).toList, len)) ∨
    (∃ p len, simpleAt (probeICU.drop p) = some (("count" : String).toList, len) ∧
      endsCaseLabel (probeICU.take p) = false) :=
  C3_extractor_probe_and_shape.2.2.2 probeICU "count" (by decide)

/-- C6 (amended): if an extracted name `n` of `s` is found in the candidate in
neither `{n}` nor `{n,` form, validation fails and the reason names the first
missing name in the sorted list; when `n` is the only missing name, the reason
is exactly `"Missing placeholder: {n}"`. -/
theorem C6_missing_token_reason (s c : List Char) (n : String)
    (hn : n ∈ extract_placeholder_names s)
    (hmiss : tokenFound n.toList c = false) :
    (validate_preserved_tokens s c).1 = false ∧
    (∃ m, m ∈ extract_placeholder_names s ∧ tokenFound m.toList c = false ∧
      (validate_preserved_tokens s c).2 =
        some ("Missing placeholder: \x7b" ++ m ++ "\x7d")) ∧
    ((∀ m ∈ extract_placeholder_names s, m ≠ n → tokenFound m.toList c = true) →
      (validate_preserved_tokens s c).2 =
        some ("Missing placeholder: \x7b" ++ n ++ "\x7d")) := by
  obtain ⟨m, hm1, hm2, hm3⟩ := firstMissing_some_of_missing hn hmiss
  unfold validate_preserved_tokens
  rw [hm1]
  refine ⟨rfl, ⟨m, hm2, hm3, rfl⟩, ?_⟩
  intro hrest
  have hmn : m = n := by
    by_cases hc : m = n
    · exact hc
    · exact absurd (hrest m hm2 hc) (by rw [hm3]; exact Bool.noConfusion)
  rw [hmn]

/-- C6 counterexample: with source `"{a} {b}"` and the empty candidate, the
token `"b"` is missing, but the returned reason names `"a"` (the first missing
name), not `"b"`. -/
theorem C6_counterexample :
    "b" ∈ extract_placeholder_names "\x7ba\x7d \x7bb\x7d".toList ∧
    tokenFound ("b" : String).toList [] = false ∧
    (validate_preserved_tokens "\x7ba\x7d \x7bb\x7d".toList []).2 =
      some "Missing placeholder: \x7ba\x7d" ∧
    ("Missing placeholder: \x7ba\x7d" : String) ≠ "Missing placeholder: \x7bb\x7d" := by
  refine ⟨by decide, by decide, by decide, by decide⟩

/-- C6 witness: with source `"{a}"` and the empty candidate, validation fails
naming `"a"`. -/
theorem C6_missing_token_reason_witness :
    (validate_preserved_tokens "\x7ba\x7d".toList []).1 = false ∧
    (validate_preserved_tokens "\x7ba\x7d".toList []).2 =
      some ("Missing placeholder: \x7b" ++ "a" ++ "\x7d") := by
  have h := C6_missing_token_reason "\x7ba\x7d".toList [] "a" (by decide) (by decide)
  exact ⟨h.1, h.2.2 (by decide)⟩

/-! ## Append stability: anchored matches survive extending the text to the
right.  Each scan inside a successful match stops at a concrete character of
the matched prefix, so appending more text cannot change the match. -/

theorem dropWhile_append_stable {p : Char → Bool} :
    ∀ (l t : List Char), l.dropWhile p ≠ [] →
      (l ++ t).takeWhile p = l.takeWhile p ∧
      (l ++ t).dropWhile p = l.dropWhile p ++ t
  | [], _, h => absurd rfl h
  | c :: l, t, h => by
    by_cases hc : p c = true
    · have h2 : (c :: l).dropWhile p = l.dropWhile p := by
        simp [List.dropWhile_cons, hc]
      rw [h2] at h
      obtain ⟨h3, h4⟩ := dropWhile_append_stable l t h
      constructor
      · simp [List.takeWhile_cons, hc, h3]
      · simp [List.dropWhile_cons, hc, h4, h2]
    · rw [Bool.not_eq_true] at hc
      constructor
      · simp [List.takeWhile_cons, hc]
      · simp [List.dropWhile_cons, hc]

theorem wsComma_nil : wsComma [] = none := rfl

theorem wsComma_le {l : List Char} {n : Nat} (h : wsComma l = some n) :
    n ≤ l.length := by
  obtain ⟨tail, htail⟩ := wsComma_some h
  simp only [wsComma, drop_length_takeWhile, htail] at h
  simp only [Option.some.injEq] at h
  have hlen : (List.takeWhile pySpace l ++ List.dropWhile pySpace l).length = l.length := by
    rw [List.takeWhile_append_dropWhile]
  rw [List.length_append, htail, List.length_cons] at hlen
  omega

theorem wsComma_append {l t : List Char} {n : Nat} (h : wsComma l = some n) :
    wsComma (l ++ t) = some n := by
  obtain ⟨tail, htail⟩ := wsComma_some h
  have hne : l.dropWhile pySpace ≠ [] := by
    rw [htail]; exact List.cons_ne_nil _ _
  obtain ⟨h1, h2⟩ := dropWhile_append_stable l t hne
  simp only [wsComma, drop_length_takeWhile, htail] at h
  simp only [wsComma, drop_length_takeWhile]
  rw [h2, htail, h1, List.cons_append]
  exact h

theorem startsCI_append : ∀ (kw l t : List Char), startsCI kw l = true →
    startsCI kw (l ++ t) = true
  | [], _, _, _ => rfl
  | _ :: _, [], _, h => by simp [startsCI] at h
  | k :: ks, c :: cs, t, h => by
    simp only [startsCI, Bool.and_eq_true, List.cons_append] at h ⊢
    exact ⟨h.1, startsCI_append ks cs t h.2⟩

theorem startsCI_length : ∀ (kw l : List Char), startsCI kw l = true →
    kw.length ≤ l.length
  | [], _, _ => Nat.zero_le _
  | _ :: _, [], h => by simp [startsCI] at h
  | k :: ks, c :: cs, h => by
    simp only [startsCI, Bool.and_eq_true] at h
    simpa [List.length_cons] using Nat.succ_le_succ (startsCI_length ks cs h.2)

theorem startsCI_head {k : Char} {ks l : List Char} (h : startsCI (k :: ks) l = true) :
    ∃ c cs, l = c :: cs ∧ c.toLower = k := by
  cases l with
  | nil => simp [startsCI] at h
  | cons c cs =>
    simp only [startsCI, Bool.and_eq_true, beq_iff_eq] at h
    exact ⟨c, cs, rfl, h.1⟩

theorem startsCI_head_ne {k : Char} {ks : List Char} {c : Char} {l : List Char}
    (h : c.toLower ≠ k) : startsCI (k :: ks) (c :: l) = false := by
  simp [startsCI, h]

theorem startsCI_split : ∀ (k1 k2 l : List Char), startsCI (k1 ++ k2) l = true →
    startsCI k2 (l.drop k1.length) = true
  | [], _, l, h => by simpa using h
  | _ :: _, _, [], h => by simp [startsCI] at h
  | k :: ks, k2, c :: cs, h => by
    simp only [List.cons_append, startsCI, Bool.and_eq_true] at h
    simpa using startsCI_split ks k2 cs h.2

theorem kwComma_append {kw l t : List Char} {n : Nat} (h : kwComma kw l = some n) :
    kwComma kw (l ++ t) = some n := by
  simp only [kwComma] at h
  split at h
  · rename_i hsci
    rw [kwComma, if_pos (startsCI_append kw l t hsci)]
    rw [List.drop_append_of_le_length (startsCI_length kw l hsci)]
    split at h
    · rename_i m hws
      rw [wsComma_append hws]
      exact h
    · exact absurd h (by simp)
  · exact absurd h (by simp)

theorem not_pySpace_of_toLower_o {c : Char} (h : c.toLower = 'o') :
    pySpace c = false := by
  by_contra hc
  rw [Bool.not_eq_false] at hc
  simp only [pySpace, Bool.or_eq_true, beq_iff_eq] at hc
  rcases hc with (((((h1 | h1) | h1) | h1) | h1) | h1) <;> subst h1 <;>
    exact absurd h (by decide)

theorem toLower_o_ne_comma {c : Char} (h : c.toLower = 'o') : c ≠ ',' := by
  intro hc
  subst hc
  exact absurd h (by decide)

theorem wsComma_cons_none {c : Char} (l : List Char) (hs : pySpace c = false)
    (hc : c ≠ ',') : wsComma (c :: l) = none := by
  have ht : (c :: l).takeWhile pySpace = [] := by simp [List.takeWhile_cons, hs]
  simp only [wsComma, ht, List.length_nil, List.drop_zero]
  split
  · rename_i tail heq
    injection heq with heq1 heq2
    exact absurd heq1 hc
  · rfl

theorem kwComma_none_of_false {kw l : List Char} (h : startsCI kw l = false) :
    kwComma kw l = none := by
  simp [kwComma, h]

theorem kwComma_some_startsCI {kw l : List Char} {n : Nat} (h : kwComma kw l = some n) :
    startsCI kw l = true := by
  by_contra hc
  rw [Bool.not_eq_true] at hc
  rw [kwComma_none_of_false hc] at h
  exact Option.noConfusion h

theorem kwComma_none_of_ws_none {kw l : List Char} (hs : startsCI kw l = true)
    (hw : wsComma (l.drop kw.length) = none) : kwComma kw l = none := by
  simp [kwComma, hs, hw]

/-- A character whose lower case is `'s'` is not `'p'` under `toLower`:
the `plural` alternative fails on a text starting a `select`/`selectordinal`
match, in the extension as well. -/
theorem plural_fails_of_s {l3 t : List Char}
    (hhead : ∃ c cs, l3 = c :: cs ∧ c.toLower = 's') :
    kwComma pluralKW (l3 ++ t) = none := by
  obtain ⟨c, cs, rfl, hc⟩ := hhead
  apply kwComma_none_of_false
  rw [show pluralKW = 'p' :: "lural".toList from rfl, List.cons_append]
  apply startsCI_head_ne
  rw [hc]
  decide

/-- When `selectordinal` matched, the char after the first six has lower case
`'o'`; it is neither whitespace nor a comma, so the `select` alternative keeps
failing after appending. -/
theorem select_fails_of_ordinal {l3 t : List Char}
    (hso : startsCI selectordinalKW l3 = true) :
    kwComma selectKW (l3 ++ t) = none := by
  by_cases hsci : startsCI selectKW (l3 ++ t) = true
  · have hsplit : startsCI ("ordinal".toList) (l3.drop 6) = true := by
      have := startsCI_split selectKW ("ordinal".toList) l3
        (by rw [show selectKW ++ "ordinal".toList = selectordinalKW from rfl]; exact hso)
      simpa using this
    have hcons : ∃ c cs, l3.drop 6 = c :: cs ∧ c.toLower = 'o' := by
      have hx : startsCI ('o' :: "rdinal".toList) (l3.drop 6) = true := by
        rw [show ('o' :: "rdinal".toList) = "ordinal".toList from rfl]
        exact hsplit
      exact startsCI_head hx
    obtain ⟨c, cs, hdrop, hc⟩ := hcons
    have h6 : (6 : Nat) ≤ l3.length := by
      have := startsCI_length selectordinalKW l3 hso
      simp only [show selectordinalKW.length = 13 from rfl] at this
      omega
    apply kwComma_none_of_ws_none hsci
    rw [show selectKW.length = 6 from rfl, List.drop_append_of_le_length h6, hdrop,
      List.cons_append]
    exact wsComma_cons_none _ (not_pySpace_of_toLower_o hc) (toLower_o_ne_comma hc)
  · exact kwComma_none_of_false (Bool.eq_false_iff.mpr hsci)

/-- Ordered-alternation stability: the keyword alternation of `ICU_VAR_RE`
gives the same result after the text is extended on the right. -/
theorem kwAlt_append {l3 t : List Char} {n2 : Nat}
    (h : (kwComma pluralKW l3 <|> kwComma selectKW l3 <|>
          kwComma selectordinalKW l3) = some n2) :
    (kwComma pluralKW (l3 ++ t) <|> kwComma selectKW (l3 ++ t) <|>
      kwComma selectordinalKW (l3 ++ t)) = some n2 := by
  rcases hp : kwComma pluralKW l3 with _ | np
  · rw [hp, Option.none_orElse] at h
    rcases hs : kwComma selectKW l3 with _ | ns
    · rw [hs, Option.none_orElse] at h
      have hso : startsCI selectordinalKW l3 = true := kwComma_some_startsCI h
      have hhead : ∃ c cs, l3 = c :: cs ∧ c.toLower = 's' := by
        have hx : startsCI ('s' :: "electordinal".toList) l3 = true := by
          rw [show ('s' :: "electordinal".toList) = selectordinalKW from rfl]
          exact hso
        exact startsCI_head hx
      rw [plural_fails_of_s hhead, Option.none_orElse,
        select_fails_of_ordinal hso, Option.none_orElse]
      exact kwComma_append h
    · rw [hs, Option.some_orElse] at h
      have hhead : ∃ c cs, l3 = c :: cs ∧ c.toLower = 's' := by
        have hx : startsCI ('s' :: "elect".toList) l3 = true := by
          rw [show ('s' :: "elect".toList) = selectKW from rfl]
          exact kwComma_some_startsCI hs
        exact startsCI_head hx
      rw [plural_fails_of_s hhead, Option.none_orElse, kwComma_append hs,
        Option.some_orElse]
      exact h
  · rw [hp, Option.some_orElse] at h
    rw [kwComma_append hp, Option.some_orElse]
    exact h

theorem kwAlt_nil : (kwComma pluralKW [] <|> kwComma selectKW [] <|>
    kwComma selectordinalKW []) = none := by decide

/-- Re-assembling an `ICU_VAR_RE` match from its components. -/
theorem icuAt_intro (rest : List Char) (n1 n2 : Nat)
    (hne : ¬ (rest.takeWhile pyWord).isEmpty = true)
    (hws : wsComma (rest.drop (rest.takeWhile pyWord).length) = some n1)
    (halt : (kwComma pluralKW
        ((rest.drop ((rest.takeWhile pyWord).length + n1)).drop
          ((rest.drop ((rest.takeWhile pyWord).length + n1)).takeWhile pySpace).length) <|>
      kwComma selectKW
        ((rest.drop ((rest.takeWhile pyWord).length + n1)).drop
          ((rest.drop ((rest.takeWhile pyWord).length + n1)).takeWhile pySpace).length) <|>
      kwComma selectordinalKW
        ((rest.drop ((rest.takeWhile pyWord).length + n1)).drop
          ((rest.drop ((rest.takeWhile pyWord).length + n1)).takeWhile pySpace).length)) =
        some n2) :
    icuAt ('{' :: rest) =
      some (rest.takeWhile pyWord,
        1 + (rest.takeWhile pyWord).length + n1 +
          ((rest.drop ((rest.takeWhile pyWord).length + n1)).takeWhile pySpace).length + n2) := by
  rw [icuAt.eq_def]
  simp only [if_neg hne, hws, halt]

/-- An `ICU_VAR_RE` match at the head survives extending the text on the
right. -/
theorem icuAt_append {l t name : List Char} {len : Nat}
    (h : icuAt l = some (name, len)) : icuAt (l ++ t) = some (name, len) := by
  rw [icuAt.eq_def] at h
  split at h
  · rename_i rest
    simp only at h
    split at h
    · exact absurd h (by simp)
    · split at h
      · exact absurd h (by simp)
      · rename_i hne wsopt n1 hws
        split at h
        · rename_i altopt n2 halt
          simp only [Option.some.injEq, Prod.mk.injEq] at h
          obtain ⟨hname, hlen⟩ := h
          have hwsn : wsComma (rest.dropWhile pyWord) = some n1 := by
            rw [← drop_length_takeWhile]; exact hws
          have f1 : rest.dropWhile pyWord ≠ [] := by
            intro hnil
            rw [hnil, wsComma_nil] at hwsn
            exact Option.noConfusion hwsn
          obtain ⟨ht1, ht2⟩ := dropWhile_append_stable rest t f1
          have f3 : (rest.takeWhile pyWord).length ≤ rest.length :=
            (List.takeWhile_prefix pyWord).length_le
          have f4 : (rest ++ t).drop (rest.takeWhile pyWord).length =
              rest.drop (rest.takeWhile pyWord).length ++ t :=
            List.drop_append_of_le_length f3
          have f6 : n1 ≤ (rest.drop (rest.takeWhile pyWord).length).length :=
            wsComma_le hws
          rw [List.length_drop] at f6
          have f7 : (rest.takeWhile pyWord).length + n1 ≤ rest.length := by omega
          have f8 : (rest ++ t).drop ((rest.takeWhile pyWord).length + n1) =
              rest.drop ((rest.takeWhile pyWord).length + n1) ++ t :=
            List.drop_append_of_le_length f7
          set l2 := rest.drop ((rest.takeWhile pyWord).length + n1) with hl2
          set l3 := l2.drop (l2.takeWhile pySpace).length with hl3
          have f9 : l3 = l2.dropWhile pySpace := by rw [hl3, drop_length_takeWhile]
          have f10 : l3 ≠ [] := by
            intro hnil
            rw [hnil, kwAlt_nil] at halt
            exact Option.noConfusion halt
          have f11 : l2.dropWhile pySpace ≠ [] := by rw [← f9]; exact f10
          obtain ⟨hs1, hs2⟩ := dropWhile_append_stable l2 t f11
          have f13 : (l2.takeWhile pySpace).length ≤ l2.length :=
            (List.takeWhile_prefix pySpace).length_le
          have f14 : (l2 ++ t).drop (l2.takeWhile pySpace).length = l3 ++ t := by
            rw [List.drop_append_of_le_length f13, hl3]
          have f15 := @kwAlt_append l3 t n2 halt
          have h1 : ¬ ((rest ++ t).takeWhile pyWord).isEmpty = true := by
            rw [ht1]; exact hne
          have h2 : wsComma ((rest ++ t).drop ((rest ++ t).takeWhile pyWord).length) =
              some n1 := by
            rw [ht1, f4]; exact wsComma_append hws
          have h3 : (kwComma pluralKW
              (((rest ++ t).drop (((rest ++ t).takeWhile pyWord).length + n1)).drop
                (((rest ++ t).drop (((rest ++ t).takeWhile pyWord).length + n1)).takeWhile
                  pySpace).length) <|>
            kwComma selectKW
              (((rest ++ t).drop (((rest ++ t).takeWhile pyWord).length + n1)).drop
                (((rest ++ t).drop (((rest ++ t).takeWhile pyWord).length + n1)).takeWhile
                  pySpace).length) <|>
            kwComma selectordinalKW
              (((rest ++ t).drop (((rest ++ t).takeWhile pyWord).length + n1)).drop
                (((rest ++ t).drop (((rest ++ t).takeWhile pyWord).length + n1)).takeWhile
                  pySpace).length)) = some n2 := by
            rw [ht1, f8, hs1, f14]
            exact f15
          have hinst := icuAt_intro (rest ++ t) n1 n2 h1 h2 h3
          rw [ht1, f8, hs1] at hinst
          rw [List.cons_append, hinst, hname]
          rw [hname] at hlen
          rw [hlen]
        · exact absurd h (by simp)
  · exact absurd h (by simp)

theorem tokenTail_append {r t : List Char} (h : tokenTail r = true) :
    tokenTail (r ++ t) = true := by
  unfold tokenTail at h
  split at h
  · rename_i r2
    rw [List.cons_append]
    exact tokenTail_of_brace
  · rw [drop_length_takeWhile] at h
    split at h
    · rename_i tail heq
      have hne : r.dropWhile pySpace ≠ [] := by
        rw [heq]; exact List.cons_ne_nil _ _
      obtain ⟨-, h2⟩ := dropWhile_append_stable r t hne
      exact tokenTail_of_comma (by rw [h2, heq, List.cons_append])
    · exact Bool.noConfusion h

theorem tokenAt_append {name l t : List Char} (h : tokenAt name l = true) :
    tokenAt name (l ++ t) = true := by
  rw [tokenAt.eq_def] at h
  split at h
  · rename_i rest
    rw [Bool.and_eq_true] at h
    have hpre : name <+: rest := List.isPrefixOf_iff_prefix.1 h.1
    rw [List.cons_append, tokenAt, Bool.and_eq_true]
    constructor
    · exact List.isPrefixOf_iff_prefix.2 (hpre.trans (List.prefix_append rest t))
    · rw [List.drop_append_of_le_length hpre.length_le]
      exact tokenTail_append h.2
  · exact Bool.noConfusion h

theorem tokenFound_append {name c t : List Char} (h : tokenFound name c = true) :
    tokenFound name (c ++ t) = true := by
  unfold tokenFound at h ⊢
  rw [List.any_eq_true] at h ⊢
  obtain ⟨p, hp, hat⟩ := h
  rw [List.mem_range] at hp
  have hple : p ≤ c.length := Nat.lt_succ_iff.1 hp
  refine ⟨p, ?_, ?_⟩
  · rw [List.mem_range, List.length_append]
    omega
  · rw [List.drop_append_of_le_length hple]
    exact tokenAt_append hat

theorem has_icu_block_append {c t : List Char} (h : has_icu_block c = true) :
    has_icu_block (c ++ t) = true := by
  unfold has_icu_block at h ⊢
  rw [List.any_eq_true] at h ⊢
  obtain ⟨p, hp, hat⟩ := h
  rw [List.mem_range] at hp
  rw [Option.isSome_iff_exists] at hat
  obtain ⟨⟨nm, ln⟩, hpr⟩ := hat
  refine ⟨p, ?_, ?_⟩
  · rw [List.mem_range, List.length_append]
    omega
  · rw [List.drop_append_of_le_length (Nat.lt_succ_iff.1 hp),
      Option.isSome_iff_exists]
    exact ⟨(nm, ln), icuAt_append hpr⟩

theorem validate_pass_inv {s c : List Char}
    (h : validate_preserved_tokens s c = (true, none)) :
    firstMissing (extract_placeholder_names s) c = none ∧
    (has_icu_block s = true → has_icu_block c = true) := by
  unfold validate_preserved_tokens at h
  split at h
  · exact absurd h (by simp)
  · rename_i heq
    refine ⟨heq, ?_⟩
    intro hs
    split at h
    · exact absurd h (by simp)
    · rename_i hcond
      by_contra hc
      rw [Bool.not_eq_true] at hc
      exact hcond (by rw [hs, hc]; rfl)

/-- C10: validation is monotone under extending the candidate on the right:
a candidate that passes keeps passing after appending any text (in
particular, extra placeholder names not present in the source never cause a
failure). -/
theorem C10_validation_monotone_append (s c t : List Char)
    (h : validate_preserved_tokens s c = (true, none)) :
    validate_preserved_tokens s (c ++ t) = (true, none) := by
  obtain ⟨hfm, hicu⟩ := validate_pass_inv h
  have hall := all_found_of_firstMissing_none hfm
  unfold validate_preserved_tokens
  rw [firstMissing_eq_none fun n hn => tokenFound_append (hall n hn)]
  by_cases hsrc : has_icu_block s = true
  · rw [hsrc, has_icu_block_append (hicu hsrc)]
    simp
  · rw [Bool.not_eq_true] at hsrc
    rw [hsrc]
    simp

/-- C10 witness: a passing candidate for `"{n}"` still passes after appending
an extra placeholder. -/
theorem C10_validation_monotone_append_witness :
    validate_preserved_tokens ("\x7bn\x7d".toList)
      ("ok \x7bn\x7d".toList ++ " \x7bextra\x7d".toList) = (true, none) :=
  C10_validation_monotone_append "\x7bn\x7d".toList "ok \x7bn\x7d".toList
    " \x7bextra\x7d".toList (by decide)

/-! ## Claim theorems: job runner -/

theorem runAttempts_ok {text : List Char} {primary : Nat → Except String (List Char)} :
    ∀ {l : List Nat} {e : Option String} {out : List Char},
      runAttempts text primary l e = .ok out →
      (validate_preserved_tokens text out).1 = true := by
  intro l
  induction l with
  | nil => intro e out h; simp [runAttempts] at h
  | cons a rest ih =>
    intro e out h
    rw [runAttempts] at h
    split at h
    · exact ih h
    · rename_i out2
      split at h
      · rename_i hval
        injection h with h2
        rw [← h2]
        exact hval
      · exact ih h

theorem runAttempts_fail_last {text : List Char}
    {primary : Nat → Except String (List Char)} :
    ∀ (l : List Nat) (a : Nat) (e : Option String),
      (∀ x ∈ l ++ [a], attemptFails text primary x = true) →
      runAttempts text primary (l ++ [a]) e =
        .error (some (attemptReason text primary a)) := by
  intro l
  induction l with
  | nil =>
    intro a e hfail
    have ha := hfail a (by simp)
    rcases hpa : primary a with msg | out
    · simp [runAttempts, hpa, attemptReason]
    · simp only [attemptFails, hpa, Bool.not_eq_true'] at ha
      simp [runAttempts, hpa, ha, attemptReason]
  | cons b l ih =>
    intro a e hfail
    have hb := hfail b (by simp)
    have htail : ∀ x ∈ l ++ [a], attemptFails text primary x = true := fun x hx =>
      hfail x (List.mem_cons_of_mem _ hx)
    rcases hpb : primary b with msg | out
    · rw [List.cons_append, runAttempts]
      simp only [hpb]
      exact ih a _ htail
    · simp only [attemptFails, hpb, Bool.not_eq_true'] at hb
      rw [List.cons_append, runAttempts]
      simp only [hpb, hb, Bool.false_eq_true, if_false]
      exact ih a _ htail

theorem runAttempts_all_fail {text : List Char}
    {primary : Nat → Except String (List Char)} {retries : Nat}
    (hfail : ∀ a ∈ List.range (retries + 1), attemptFails text primary a = true) :
    runAttempts text primary (List.range (retries + 1)) none =
      .error (some (attemptReason text primary retries)) := by
  rw [List.range_succ]
  refine runAttempts_fail_last _ _ _ ?_
  rw [← List.range_succ]
  exact hfail

theorem translate_one_eq_ok {key : String} {text : List Char}
    {primary : Nat → Except String (List Char)} {retries : Nat}
    {fallback_cfg : Option (Except String (List Char))} {out : List Char}
    (hr : runAttempts text primary (List.range (retries + 1)) none = Except.ok out) :
    translate_one key text primary retries fallback_cfg =
      ⟨key, out, none, false, 0⟩ := by
  unfold translate_one
  rw [hr]

theorem translate_one_eq_none {key : String} {text : List Char}
    {primary : Nat → Except String (List Char)} {retries : Nat} {e : Option String}
    (hr : runAttempts text primary (List.range (retries + 1)) none = Except.error e) :
    translate_one key text primary retries none = ⟨key, text, e, false, 0⟩ := by
  unfold translate_one
  rw [hr]

theorem translate_one_eq_fb_err {key : String} {text : List Char}
    {primary : Nat → Except String (List Char)} {retries : Nat} {e : Option String}
    {msg : String}
    (hr : runAttempts text primary (List.range (retries + 1)) none = Except.error e) :
    translate_one key text primary retries (some (Except.error msg)) =
      ⟨key, text, e, false, 1⟩ := by
  unfold translate_one
  rw [hr]

theorem translate_one_eq_fb_ok {key : String} {text : List Char}
    {primary : Nat → Except String (List Char)} {retries : Nat} {e : Option String}
    {fout : List Char}
    (hr : runAttempts text primary (List.range (retries + 1)) none = Except.error e) :
    translate_one key text primary retries (some (Except.ok fout)) =
      if (validate_preserved_tokens text fout).1 then ⟨key, fout, none, true, 1⟩
      else ⟨key, text, e, false, 1⟩ := by
  unfold translate_one
  rw [hr]

/-- C1 (amended): for every job and every backend behaviour, `translate_one`
terminates (it is a total function) with no exception escaping (its result
type carries no error case), and the outcome text is either a candidate that
passes `validate_preserved_tokens` against the source text or the original
source text itself.  (The outcome can be the empty string, when the backend
returns an empty response and the source has no protected tokens.) -/
theorem C1_outcome_validated_or_source (key : String) (text : List Char)
    (primary : Nat → Except String (List Char)) (retries : Nat)
    (fallback_cfg : Option (Except String (List Char))) :
    (validate_preserved_tokens text
        (translate_one key text primary retries fallback_cfg).text).1 = true ∨
    (translate_one key text primary retries fallback_cfg).text = text := by
  rcases hr : runAttempts text primary (List.range (retries + 1)) none with e | out
  · rcases fallback_cfg with _ | fb
    · rw [translate_one_eq_none hr]
      exact Or.inr rfl
    · rcases fb with msg | fout
      · rw [translate_one_eq_fb_err hr]
        exact Or.inr rfl
      · rw [translate_one_eq_fb_ok hr]
        by_cases hv : (validate_preserved_tokens text fout).1 = true
        · rw [if_pos hv]
          exact Or.inl hv
        · rw [if_neg hv]
          exact Or.inr rfl
  · rw [translate_one_eq_ok hr]
    exact Or.inl (runAttempts_ok hr)

/-- C1 counterexample: the claim's "non-empty" part fails: a backend that
returns the empty string for the token-free source `"Hello"` yields the empty
string as the outcome text. -/
theorem C1_counterexample :
    (translate_one "k" "Hello".toList (fun _ => Except.ok []) 0 none).text = [] := by
  decide

/-- C2 (amended): if every primary attempt fails and the configured fallback
attempt also fails (raises, or fails validation), `translate_one` returns the
original source text with `used_fallback = false`, and the recorded error is
the reason of the last failing primary attempt — the fallback attempt's own
failure reason is discarded. -/
theorem C2_all_fail_keeps_source (key : String) (text : List Char)
    (primary : Nat → Except String (List Char)) (retries : Nat)
    (fb : Except String (List Char))
    (hfail : ∀ a ∈ List.range (retries + 1), attemptFails text primary a = true)
    (hfb : (∃ msg, fb = Except.error msg) ∨
      (∃ v, fb = Except.ok v ∧ (validate_preserved_tokens text v).1 = false)) :
    translate_one key text primary retries (some fb) =
      ⟨key, text, some (attemptReason text primary retries), false, 1⟩ := by
  have hr := runAttempts_all_fail hfail
  rcases hfb with ⟨msg, rfl⟩ | ⟨v, rfl, hv⟩
  · rw [translate_one_eq_fb_err hr]
  · rw [translate_one_eq_fb_ok hr, if_neg (by simp [hv])]

/-- C2 witness. -/
theorem C2_all_fail_keeps_source_witness :
    translate_one "k" "Hi".toList (fun _ => Except.error "boom") 0
        (some (Except.error "fb-reason")) =
      ⟨"k", "Hi".toList, some "boom", false, 1⟩ := by
  have h := C2_all_fail_keeps_source "k" "Hi".toList (fun _ => Except.error "boom") 0
    (Except.error "fb-reason")
    (by
      intro a ha
      rw [List.mem_range, Nat.lt_one_iff] at ha
      subst ha
      decide)
    (Or.inl ⟨"fb-reason", rfl⟩)
  exact h

/-- C2 counterexample: with a primary failure "primary boom" and a fallback
failure "fallback boom", the recorded error is "primary boom" — not the
reason of the last failing attempt (the fallback's). -/
theorem C2_counterexample :
    (translate_one "k" "Hi".toList (fun _ => Except.error "primary boom") 0
        (some (Except.error "fallback boom"))).err = some "primary boom" ∧
    ("primary boom" : String) ≠ "fallback boom" := by
  refine ⟨by decide, by decide⟩

/-- C4: when the primary retry budget is exhausted (all `retries + 1` attempts
fail) and a fallback backend is configured, exactly one request is made to the
fallback backend, and the fallback result is returned as the outcome (with
`used_fallback = true` and no error) if and only if it passes
`validate_preserved_tokens` against the source text. -/
theorem C4_fallback_exactly_once (key : String) (text : List Char)
    (primary : Nat → Except String (List Char)) (retries : Nat)
    (fb : Except String (List Char))
    (hfail : ∀ a ∈ List.range (retries + 1), attemptFails text primary a = true) :
    (translate_one key text primary retries (some fb)).fallback_calls = 1 ∧
    ((∃ v, fb = Except.ok v ∧ (validate_preserved_tokens text v).1 = true) ↔
      ((translate_one key text primary retries (some fb)).used_fallback = true ∧
        (translate_one key text primary retries (some fb)).err = none)) ∧
    (∀ v, fb = Except.ok v → (validate_preserved_tokens text v).1 = true →
      (translate_one key text primary retries (some fb)).text = v) := by
  have hr := runAttempts_all_fail hfail
  rcases fb with msg | v
  · rw [translate_one_eq_fb_err hr]
    refine ⟨rfl, ⟨?_, ?_⟩, ?_⟩
    · rintro ⟨v, hv, -⟩
      exact Except.noConfusion hv
    · rintro ⟨h1, -⟩
      exact absurd h1 (by simp)
    · intro v hv
      exact absurd hv (by simp)
  · rw [translate_one_eq_fb_ok hr]
    by_cases hval : (validate_preserved_tokens text v).1 = true
    · rw [if_pos hval]
      refine ⟨rfl, ⟨?_, ?_⟩, ?_⟩
      · intro _
        exact ⟨rfl, rfl⟩
      · intro _
        exact ⟨v, rfl, hval⟩
      · intro v2 hv2 _
        injection hv2 with hv3
    · rw [if_neg hval]
      refine ⟨rfl, ⟨?_, ?_⟩, ?_⟩
      · rintro ⟨v2, hv2, hval3⟩
        injection hv2 with hv3
        rw [← hv3] at hval3
        exact absurd hval3 hval
      · rintro ⟨h1, -⟩
        exact absurd h1 (by simp)
      · intro v2 hv2 hval3
        injection hv2 with hv3
        rw [← hv3] at hval3
        exact absurd hval3 hval

/-- C4 witness: one primary failure, fallback succeeds with a validated
text. -/
theorem C4_fallback_exactly_once_witness :
    (translate_one "k" "Hi".toList (fun _ => Except.error "boom") 0
        (some (Except.ok "Salut".toList))).fallback_calls = 1 ∧
    (translate_one "k" "Hi".toList (fun _ => Except.error "boom") 0
        (some (Except.ok "Salut".toList))).used_fallback = true := by
  have h := C4_fallback_exactly_once "k" "Hi".toList (fun _ => Except.error "boom") 0
    (Except.ok "Salut".toList)
    (by
      intro a ha
      rw [List.mem_range, Nat.lt_one_iff] at ha
      subst ha
      decide)
  exact ⟨h.1, (h.2.1.mp ⟨"Salut".toList, rfl, by decide⟩).1⟩

/-! ## Claim theorems: diff engine and merge -/

theorem key_missing_nil (k : String) : key_missing [] k = true := rfl

/-- Membership characterization of `find_missing_keys`. -/
theorem find_missing_mem (source target : Doc) (k : String) :
    k ∈ find_missing_keys source target ↔
      (∃ v, (k, v) ∈ source) ∧
      (k == "@@locale" || startsWithAt k) = false ∧
      key_missing target k = true := by
  unfold find_missing_keys
  rw [List.mem_filterMap]
  constructor
  · rintro ⟨⟨k2, v⟩, hmem, hf⟩
    simp only at hf
    split_ifs at hf with h1 h2
    all_goals cases hf
    all_goals exact ⟨⟨v, hmem⟩, Bool.eq_false_iff.mpr h1, h2⟩
  · rintro ⟨⟨v, hmem⟩, hcond, hmiss⟩
    refine ⟨(k, v), hmem, ?_⟩
    simp only
    rw [if_neg (by simp [hcond]), if_pos hmiss]

/-- With an empty target, `find_missing_keys` returns every key of the source
that is not the locale tag and not `@`-prefixed — including untranslatable
ones (skip-listed keys, non-string values, whitespace-only strings). -/
theorem find_missing_nil_target (source : Doc) :
    find_missing_keys source [] =
      (source.map Prod.fst).filter fun k => !(k == "@@locale" || startsWithAt k) := by
  induction source with
  | nil => rfl
  | cons kv rest ih =>
    rcases kv with ⟨k, v⟩
    unfold find_missing_keys at ih ⊢
    rw [List.filterMap_cons, List.map_cons, List.filter_cons]
    simp only
    by_cases hc : (k == "@@locale" || startsWithAt k) = true
    · rw [if_pos hc, ih]
      simp [hc]
    · rw [Bool.not_eq_true] at hc
      rw [if_neg (by simp [hc]), if_pos (key_missing_nil k), ih]
      simp [hc]

theorem dictMem_of_mem {source : Doc} {k : String} {v : JVal} (h : (k, v) ∈ source) :
    dictMem source k = true := by
  unfold dictMem
  rw [Option.isSome_iff_exists]
  have : (source.find? fun kv => kv.1 == k).isSome := by
    rw [List.find?_isSome]
    exact ⟨(k, v), h, by simp⟩
  rwa [Option.isSome_iff_exists] at this

/-- On a target identical to the source, a key is reported missing exactly
when its own source value is an empty/whitespace-only string. -/
theorem find_missing_self (source : Doc) (k : String) :
    k ∈ find_missing_keys source source ↔
      (∃ v, (k, v) ∈ source) ∧
      (k == "@@locale" || startsWithAt k) = false ∧
      (∃ s, dictGet source k = some (JVal.jstr s) ∧ stripEmpty s = true) := by
  rw [find_missing_mem]
  refine and_congr_right fun hv => and_congr_right fun _ => ?_
  obtain ⟨v, hvmem⟩ := hv
  have hmem : dictMem source k = true := dictMem_of_mem hvmem
  unfold key_missing
  rw [hmem]
  rcases hget : dictGet source k with _ | w
  · simp
  · rcases w with s | n
    · simp
    · simp

/-- C7 (amended): `find_missing_keys(source, target)` returns exactly the
keys of `source` that are neither `@@locale` nor `@`-prefixed and are either
absent from `target` or mapped in `target` to a string value that is empty or
whitespace-only; for target `{}` this is every non-metadata, non-locale-tag
key of the source (not only the translatable ones), and for a target
identical to the source it is exactly the non-metadata keys whose own value
is an empty/whitespace-only string (so not necessarily the empty set). -/
theorem C7_find_missing_characterization :
    (∀ (source target : Doc) (k : String),
      k ∈ find_missing_keys source target ↔
        (∃ v, (k, v) ∈ source) ∧
        (k == "@@locale" || startsWithAt k) = false ∧
        key_missing target k = true) ∧
    (∀ source : Doc, find_missing_keys source [] =
      (source.map Prod.fst).filter fun k => !(k == "@@locale" || startsWithAt k)) ∧
    (∀ (source : Doc) (k : String),
      k ∈ find_missing_keys source source ↔
        (∃ v, (k, v) ∈ source) ∧
        (k == "@@locale" || startsWithAt k) = false ∧
        (∃ s, dictGet source k = some (JVal.jstr s) ∧ stripEmpty s = true)) :=
  ⟨find_missing_mem, find_missing_nil_target, find_missing_self⟩

/-- C7 counterexample: for a source whose only key maps to a whitespace-only
string, `find_missing_keys source source` is `["k"]`, not the empty set the
claim promises for a target identical to the source. -/
theorem C7_counterexample :
    find_missing_keys [("k", JVal.jstr " ")] [("k", JVal.jstr " ")] = ["k"] ∧
    (["k"] : List String) ≠ [] := by
  refine ⟨by decide, by decide⟩

/-- C7 witness: the characterization instantiated at a concrete document. -/
theorem C7_find_missing_characterization_witness :
    "greeting" ∈ find_missing_keys [("greeting", JVal.jstr "Hello")] [] ↔
      (∃ v, ("greeting", v) ∈ [("greeting", JVal.jstr "Hello")]) ∧
      (("greeting" : String) == "@@locale" || startsWithAt "greeting") = false ∧
      key_missing [] "greeting" = true :=
  C7_find_missing_characterization.1 [("greeting", JVal.jstr "Hello")] [] "greeting"

theorem metaStep_fst (st : Doc × Doc) (key : String) : (metaStep st key).1 = st.1 := by
  unfold metaStep
  split <;> rfl

theorem manualStep_fst (loc : String) (acc : (Doc × Doc) × List (String × List Char))
    (kv : String × List Char) : ((manualStep loc acc kv).1).1 = acc.1.1 := by
  unfold manualStep
  split
  · split <;> rfl
  · rfl

theorem foldl_fst_meta : ∀ (l : List String) (st : Doc × Doc),
    (l.foldl metaStep st).1 = st.1 := by
  intro l
  induction l with
  | nil => intro st; rfl
  | cons a rest ih =>
    intro st
    rw [List.foldl_cons, ih, metaStep_fst]

theorem foldl_fst_manual (loc : String) :
    ∀ (l : List (String × List Char)) (acc : (Doc × Doc) × List (String × List Char)),
      ((l.foldl (manualStep loc) acc).1).1 = acc.1.1 := by
  intro l
  induction l with
  | nil => intro acc; rfl
  | cons a rest ih =>
    intro acc
    rw [List.foldl_cons, ih, manualStep_fst]

theorem foldl_fst_job (primaryOf : String → Nat → Except String (List Char))
    (retries : Nat) (fallback_cfg : Option (Except String (List Char))) :
    ∀ (l : List (String × List Char)) (st : Doc × Doc),
      (l.foldl (jobStep primaryOf retries fallback_cfg) st).1 = st.1 := by
  intro l
  induction l with
  | nil => intro st; rfl
  | cons a rest ih =>
    intro st
    rw [List.foldl_cons, ih]
    rfl

/-- C8: `translate_locale` never mutates the source document: in the
state-passing model, where every dict write of the Python code is an update
of the corresponding state component, the source component after a run is
identical to the input source for every target document, locale, missing-key
set, backend behaviour and completion order; all merging happens on the copy
held in the second component. -/
theorem C8_source_not_mutated (source_data target_data : Doc) (target_locale : String)
    (primaryOf : String → Nat → Except String (List Char)) (retries : Nat)
    (fallback_cfg : Option (Except String (List Char)))
    (missing_keys : Option (List String))
    (reorder : List (String × List Char) → List (String × List Char)) :
    (translate_locale source_data target_data target_locale primaryOf retries
      fallback_cfg missing_keys reorder).1 = source_data := by
  unfold translate_locale
  rcases missing_keys with _ | mks <;>
    simp only [foldl_fst_job, foldl_fst_manual, foldl_fst_meta]

end ArbTranslate
